import Mathlib

/-!
Verification of `hack/generateChartOptions.py`.

The script parses a CLI help listing (`options`), extracts flag long-names with
the regex `\s+(?:-[^-]+)?--(\S+)\s` (one attempt per line, anchored at the start
of the line), filters an exact exclusion set, converts each surviving name to a
camel-case configuration key (`toCamelCase`: split on `[.-]`, Python
`str.capitalize` per segment, join, lowercase the first character, then a fixed
chain of `str.replace` calls fixing DNS acronym casing), and prints two text
artifacts: a sequence of 3-line Helm template blocks and a `configuration:`
stanza.

Python strings are embedded as `List Char`.  Fallible steps (the
`str[0]` index into a possibly-empty string inside `toCamelCase`, which raises
`IndexError` in Python) are embedded with `Option`; `none` models the raised
exception aborting the run.
-/

namespace ChartGen

/-- Characters matched by Python's `\s` on ASCII input. -/
def isSpace (c : Char) : Bool :=
  c == ' ' || c == '\t' || c == '\n' || c == '\r' || c == '\x0b' || c == '\x0c'

/-- The delimiters of `re.split("[.-]", name)` in `toCamelCase`. -/
def isDelim (c : Char) : Bool := c == '-' || c == '.'

/-- Embedding of a Python string literal. -/
def str (s : String) : List Char := s.toList

/-- Boolean prefix test on character lists (like `str.startswith`). -/
def pref : List Char → List Char → Bool
  | [], _ => true
  | _ :: _, [] => false
  | a :: p, b :: s => a == b && pref p s

/-- Boolean substring test: `occurs q s` is Python's `q in s`. -/
def occurs (q : List Char) : List Char → Bool
  | [] => q.isEmpty
  | c :: t => pref q (c :: t) || occurs q t

/-- Fuel-indexed embedding of Python `s.replace(p, r)` (replace all
non-overlapping occurrences, scanning left to right).  The fuel only serves to
make the recursion structural; `pyReplace` instantiates it with `s.length`,
which is always sufficient for non-empty `p` (the only way the script calls
it). -/
def replaceFuel (p r : List Char) : Nat → List Char → List Char
  | 0, s => s
  | _ + 1, [] => []
  | fuel + 1, c :: t =>
    if pref p (c :: t) then r ++ replaceFuel p r fuel ((c :: t).drop p.length)
    else c :: replaceFuel p r fuel t

/-- Python `s.replace(p, r)` for non-empty `p`. -/
def pyReplace (p r s : List Char) : List Char := replaceFuel p r s.length s

/-- The chain of `str.replace` calls of `toCamelCase`
(source lines 292-299, in source order, including the duplicated
`googleClouddns` replacement). -/
def applyReplacements (s : List Char) : List Char :=
  pyReplace (str "infobloxDns") (str "infobloxDNS")
    (pyReplace (str "cloudflareDns") (str "cloudflareDNS")
      (pyReplace (str "googleClouddns") (str "googleCloudDNS")
        (pyReplace (str "serviceDns") (str "serviceDNS")
          (pyReplace (str "ingressDns") (str "ingressDNS")
            (pyReplace (str "googleClouddns") (str "googleCloudDNS")
              (pyReplace (str "azureDns") (str "azureDNS")
                (pyReplace (str "alicloudDns") (str "alicloudDNS") s)))))))

/-- Embedding of `re.split("[.-]", name)`: split at every delimiter, keeping
empty segments (as Python does). -/
def splitDelim : List Char → List (List Char)
  | [] => [[]]
  | c :: t =>
    if isDelim c then [] :: splitDelim t
    else
      match splitDelim t with
      | [] => [[c]]
      | h :: r => (c :: h) :: r

/-- Python `str.capitalize()` on ASCII input: uppercase the first character and
lowercase all remaining characters. -/
def pyCapitalize : List Char → List Char
  | [] => []
  | c :: t => c.toUpper :: t.map Char.toLower

/-- The generic part of `toCamelCase` (source lines 290-291): split, capitalize
each segment, join, then `str[0].lower() + str[1:]`.  Returns `none` when the
joined string is empty, which is where Python raises `IndexError`. -/
def camelCore (name : List Char) : Option (List Char) :=
  match ((splitDelim name).map pyCapitalize).flatten with
  | [] => none
  | c :: t => some (c.toLower :: t)

/-- `toCamelCase` (source lines 289-300). -/
def toCamelCase (name : List Char) : Option (List Char) :=
  (camelCore name).map applyReplacements

/-- The exclusion set (source lines 302-304).  The Python set literal is
embedded as a list; membership is the same. -/
def excluded : List (List Char) :=
  [str "name", str "help", str "identifier", str "dry-run",
   str "cache-dir", str "alicloud-dns.cache-dir", str "aws-route53.cache-dir",
   str "azure-dns.cache-dir", str "google-clouddns.cache-dir",
   str "openstack-designate.cache-dir", str "cloudflare-dns.cache-dir",
   str "infoblox-dns.cache-dir"]

/-- Embedding of Python `text.split("\n")`. -/
def splitLines : List Char → List (List Char)
  | [] => [[]]
  | c :: t =>
    if c == '\n' then [] :: splitLines t
    else
      match splitLines t with
      | [] => [[c]]
      | h :: r => (c :: h) :: r

/-- The `(?:-[^-]+)?--` part of the line regex, applied after the mandatory
leading whitespace: an optional short-flag group (a dash followed by one or
more non-dash characters) and then the literal `--`.  Returns the remainder of
the line after `--`.  The greedy `[^-]+` cannot backtrack usefully (it can only
end right before a dash), so the match is deterministic. -/
def afterDashes (s : List Char) : Option (List Char) :=
  match s with
  | [] => none
  | c1 :: rest1 =>
    if c1 == '-' then
      match rest1 with
      | [] => none
      | c :: rest =>
        if c == '-' then some rest
        else
          match (c :: rest).dropWhile (fun x => !(x == '-')) with
          | [] => none
          | [_] => none
          | d1 :: d2 :: rest2 => if d1 == '-' && d2 == '-' then some rest2 else none
    else none

/-- Embedding of `re.match(r"\s+(?:-[^-]+)?--(\S+)\s", line)`, returning the
captured group.  `\s+` is mandatory leading whitespace; `(\S+)` is the maximal
non-space run after `--` and must be followed by one more whitespace
character (a shorter `\S+` match would put a non-space character under the
final `\s`, so the greedy match is the only possible one). -/
def matchLine (line : List Char) : Option (List Char) :=
  if (line.takeWhile isSpace).isEmpty then none
  else
    match afterDashes (line.dropWhile isSpace) with
    | none => none
    | some rest =>
      let nm := rest.takeWhile (fun c => !isSpace c)
      if nm.isEmpty then none
      else if (rest.dropWhile (fun c => !isSpace c)).isEmpty then none
      else some nm

/-- All captured flag names of a text, in line order (lines that do not match
are skipped). -/
def extractedNames (text : List Char) : List (List Char) :=
  (splitLines text).filterMap matchLine

/-- The filter of source line 309: `name != "" and not name in excluded`. -/
def surviving (n : List Char) : Bool := !n.isEmpty && !(excluded.contains n)

/-- The flag names that reach the renderers, in extraction order. -/
def survivors (text : List Char) : List (List Char) :=
  (extractedNames text).filter surviving

/-- Option-valued map over a list: the loop body may fail (Python exception),
in which case the run produces no final artifact. -/
def mapOpt {α β : Type} (f : α → Option β) : List α → Option (List β)
  | [] => some []
  | a :: as =>
    match f a, mapOpt f as with
    | some b, some bs => some (b :: bs)
    | _, _ => none

/-- First line of the template block (source line 311). -/
def guardLine (k : List Char) : List Char :=
  str "        \x7b\x7b- if .Values.configuration." ++ k ++ str " \x7d\x7d"

/-- Second line of the template block (source line 312): the original flag name
appears in the emitted argument, the camel-case key in the template variable
reference. -/
def bodyLine (n k : List Char) : List Char :=
  str "        - --" ++ n ++ str "=\x7b\x7b .Values.configuration." ++ k ++ str " \x7d\x7d"

/-- Third line of the template block (source line 313). -/
def endLine : List Char := str "        \x7b\x7b- end \x7d\x7d"

/-- The 3-line template block printed for one surviving flag. -/
def block (n k : List Char) : List (List Char) := [guardLine k, bodyLine n k, endLine]

/-- The full first artifact: the printed template lines, in extraction order
(source lines 305-314).  `none` models the run aborting with `IndexError`. -/
def templateOut (text : List Char) : Option (List (List Char)) :=
  (mapOpt (fun n => (toCamelCase n).map (fun k => block n k)) (survivors text)).map List.flatten

/-- The default-value table (source lines 316-323).  The numeric default
`120` is embedded as the string it is rendered to by `"%s"`. -/
def defaultValues : List (List Char × List Char) :=
  [(str "controllers", str "all"),
   (str "persistentCache", str "false"),
   (str "persistentCacheStorageSize", str "1Gi"),
   (str "persistentCacheStorageSizeAlicloud", str "20Gi"),
   (str "serverPortHttp", str "8080"),
   (str "ttl", str "120")]

/-- The configuration-stanza line for one key (source lines 332-335). -/
def configLine (k : List Char) : List Char :=
  match defaultValues.lookup k with
  | some v => str "  " ++ k ++ str ": " ++ v
  | none => str "# " ++ k ++ str ":"

/-- The full second artifact: the `configuration:` header followed by one line
per surviving flag (source lines 325-336). -/
def configOut (text : List Char) : Option (List (List Char)) :=
  (mapOpt (fun n => (toCamelCase n).map configLine) (survivors text)).map
    (fun ls => str "configuration:" :: ls)

/-- The camel-case keys of the surviving flags, in extraction order. -/
def keysOf (text : List Char) : Option (List (List Char)) :=
  mapOpt toCamelCase (survivors text)

/-- The line shape the code recognizes: mandatory (non-empty) leading
whitespace, an optional short-flag group `-<non-dash run>`, the literal `--`,
the captured name `nm` (non-empty, no whitespace), and a whitespace character
directly after the name. -/
def ShapeReq (line nm : List Char) : Prop :=
  ∃ ws g c t2,
    line = ws ++ g ++ ('-' :: '-' :: (nm ++ c :: t2)) ∧
    ws ≠ [] ∧ (∀ x ∈ ws, isSpace x = true) ∧
    (g = [] ∨ ∃ run, g = '-' :: run ∧ run ≠ [] ∧ ∀ x ∈ run, ¬(x = '-')) ∧
    nm ≠ [] ∧ (∀ x ∈ nm, isSpace x = false) ∧
    isSpace c = true

/-- `canPref q u` is false when no continuation of `u` can start with `q`:
neither is `u` a prefix of `q` nor `q` a prefix of `u`. -/
def canPref (q u : List Char) : Bool := pref u q || pref q u

/-- `noSpan q r`: no occurrence of `q` can start inside `r`, whatever follows
`r`. -/
def noSpan (q r : List Char) : Bool :=
  r.tails.all (fun u => u.isEmpty || !canPref q u)

/-- The patterns of the replacement chain are "good": they contain no
uppercase `N` or `S`, and `D` never occurs as the last character.  Replacement
output only ever writes `D`,`N`,`S` (with `N`,`S` directly after a written
`D`), so occurrences of good patterns can never be created by a replacement. -/
def goodq : List Char → Bool
  | [] => true
  | c :: t => !(c == 'N') && !(c == 'S') && !(c == 'D' && t.isEmpty) && goodq t

/-- `Mask s o`: `o` is obtained from `s` by rewriting (some of the) in-place
occurrences of lowercase `dns`/`ns` runs to `DNS`/`NS`.  Every replacement of
the chain transforms its input this way: all its pattern/replacement pairs have
equal length and differ exactly in a trailing `dns` or `ns` written in
uppercase. -/
inductive Mask : List Char → List Char → Prop
  | nil : Mask [] []
  | same (c : Char) {s o : List Char} : Mask s o → Mask (c :: s) (c :: o)
  | dns {s o : List Char} : Mask s o → Mask ('d' :: 'n' :: 's' :: s) ('D' :: 'N' :: 'S' :: o)
  | ns {s o : List Char} : Mask s o → Mask ('n' :: 's' :: s) ('N' :: 'S' :: o)


/-! ### Helper lemmas: prefix and substring tests -/

theorem pref_iff_append : ∀ (p s : List Char), pref p s = true ↔ ∃ t, s = p ++ t
  | [], s => by simp [pref]
  | _ :: _, [] => by simp [pref]
  | a :: p, b :: s => by
    simp only [pref, List.cons_append, Bool.and_eq_true, beq_iff_eq, List.cons.injEq]
    rw [pref_iff_append p s]
    constructor
    · rintro ⟨rfl, t, rfl⟩
      exact ⟨t, rfl, rfl⟩
    · rintro ⟨t, rfl, rfl⟩
      exact ⟨rfl, t, rfl⟩

theorem pref_nil_right {q : List Char} (h : pref q [] = true) : q = [] := by
  cases q with
  | nil => rfl
  | cons a t => simp [pref] at h

theorem occurs_of_pref {q s : List Char} (h : pref q s = true) : occurs q s = true := by
  cases s with
  | nil =>
    cases pref_nil_right h
    rfl
  | cons c t => simp [occurs, h]

theorem occurs_cons {q : List Char} (c : Char) {t : List Char}
    (h : occurs q t = true) : occurs q (c :: t) = true := by
  simp [occurs, h]

theorem occurs_nil_pat : ∀ (s : List Char), occurs [] s = true
  | [] => rfl
  | _ :: _ => by simp [occurs, pref]

theorem canPref_spec : ∀ (q u b : List Char), canPref q u = false → pref q (u ++ b) = false
  | q, [], _ => by
    intro h
    rw [canPref] at h
    simp [pref] at h
  | [], _ :: _, _ => by
    intro h
    rw [canPref] at h
    simp [pref] at h
  | a :: q, c :: u, b => by
    intro h
    rw [canPref] at h
    by_cases hac : a = c
    · subst hac
      simp only [pref, beq_self_eq_true, Bool.true_and, Bool.or_eq_false_iff] at h
      have hcp : canPref q u = false := by rw [canPref, h.1, h.2]; rfl
      simp only [List.cons_append, pref, beq_self_eq_true, Bool.true_and]
      exact canPref_spec q u b hcp
    · simp only [List.cons_append, pref]
      rw [Bool.and_eq_false_iff]
      left
      simpa using hac

theorem noSpan_cons {q : List Char} {c : Char} {r : List Char}
    (h : noSpan q (c :: r) = true) : canPref q (c :: r) = false ∧ noSpan q r = true := by
  rw [noSpan, List.tails_cons, List.all_cons] at h
  rw [Bool.and_eq_true] at h
  refine ⟨?_, h.2⟩
  simpa using h.1

theorem occurs_append_no : ∀ (r q b : List Char), occurs q b = false → noSpan q r = true →
    occurs q (r ++ b) = false := by
  intro r
  induction r with
  | nil =>
    intro q b hb _
    simpa using hb
  | cons c r2 ih =>
    intro q b hb hns
    obtain ⟨hcp, hns2⟩ := noSpan_cons hns
    have h1 : pref q ((c :: r2) ++ b) = false := canPref_spec q (c :: r2) b hcp
    simp only [List.cons_append] at h1 ⊢
    rw [occurs, h1, ih q b hb hns2]
    rfl

/-! ### Helper lemmas: the replacement mask -/

theorem Mask.append {s1 o1 s2 o2 : List Char} (h1 : Mask s1 o1) (h2 : Mask s2 o2) :
    Mask (s1 ++ s2) (o1 ++ o2) := by
  induction h1 with
  | nil => exact h2
  | same c _ ih => exact Mask.same c ih
  | dns _ ih => exact Mask.dns ih
  | ns _ ih => exact Mask.ns ih

theorem goodq_tail {c : Char} {t : List Char} (h : goodq (c :: t) = true) : goodq t = true := by
  simp only [goodq, Bool.and_eq_true] at h
  exact h.2

theorem Mask.pref_transfer : ∀ {s o : List Char}, Mask s o → ∀ {q : List Char},
    goodq q = true → pref q o = true → pref q s = true := by
  intro s o hm
  induction hm with
  | nil =>
    intro q hg hp
    exact hp
  | same c hsub ih =>
    intro q hg hp
    cases q with
    | nil => rfl
    | cons qh qt =>
      simp only [pref, Bool.and_eq_true, beq_iff_eq] at hp ⊢
      obtain ⟨rfl, hp1⟩ := hp
      exact ⟨rfl, ih (goodq_tail hg) hp1⟩
  | dns hsub ih =>
    intro q hg hp
    cases q with
    | nil => rfl
    | cons qh qt =>
      simp only [pref, Bool.and_eq_true, beq_iff_eq] at hp
      obtain ⟨rfl, hp1⟩ := hp
      cases qt with
      | nil => exact absurd hg (by decide)
      | cons q1 qt2 =>
        simp only [pref, Bool.and_eq_true, beq_iff_eq] at hp1
        obtain ⟨rfl, _⟩ := hp1
        simp [goodq] at hg
  | ns hsub ih =>
    intro q hg hp
    cases q with
    | nil => rfl
    | cons qh qt =>
      simp only [pref, Bool.and_eq_true, beq_iff_eq] at hp
      obtain ⟨rfl, _⟩ := hp
      simp [goodq] at hg

theorem Mask.occurs_transfer : ∀ {s o : List Char}, Mask s o → ∀ {q : List Char},
    goodq q = true → occurs q o = true → occurs q s = true := by
  intro s o hm
  induction hm with
  | nil =>
    intro q hg ho
    exact ho
  | same c hsub ih =>
    intro q hg ho
    rw [occurs, Bool.or_eq_true] at ho
    rcases ho with hp | ho
    · exact occurs_of_pref (Mask.pref_transfer (Mask.same c hsub) hg hp)
    · exact occurs_cons c (ih hg ho)
  | dns hsub ih =>
    intro q hg ho
    rw [occurs, Bool.or_eq_true] at ho
    rcases ho with hp | ho
    · exact occurs_of_pref (Mask.pref_transfer (Mask.dns hsub) hg hp)
    · rw [occurs, Bool.or_eq_true] at ho
      rcases ho with hp | ho
      · cases q with
        | nil => exact occurs_nil_pat _
        | cons qh qt =>
          simp only [pref, Bool.and_eq_true, beq_iff_eq] at hp
          obtain ⟨rfl, _⟩ := hp
          simp [goodq] at hg
      · rw [occurs, Bool.or_eq_true] at ho
        rcases ho with hp | ho
        · cases q with
          | nil => exact occurs_nil_pat _
          | cons qh qt =>
            simp only [pref, Bool.and_eq_true, beq_iff_eq] at hp
            obtain ⟨rfl, _⟩ := hp
            simp [goodq] at hg
        · exact occurs_cons _ (occurs_cons _ (occurs_cons _ (ih hg ho)))
  | ns hsub ih =>
    intro q hg ho
    rw [occurs, Bool.or_eq_true] at ho
    rcases ho with hp | ho
    · exact occurs_of_pref (Mask.pref_transfer (Mask.ns hsub) hg hp)
    · rw [occurs, Bool.or_eq_true] at ho
      rcases ho with hp | ho
      · cases q with
        | nil => exact occurs_nil_pat _
        | cons qh qt =>
          simp only [pref, Bool.and_eq_true, beq_iff_eq] at hp
          obtain ⟨rfl, _⟩ := hp
          simp [goodq] at hg
      · exact occurs_cons _ (occurs_cons _ (ih hg ho))

/-! ### Helper lemmas: behaviour of `pyReplace` -/

theorem replaceFuel_id : ∀ (fuel : Nat) (p r s : List Char), occurs p s = false →
    replaceFuel p r fuel s = s := by
  intro fuel
  induction fuel with
  | zero =>
    intro p r s _
    rfl
  | succ n ih =>
    intro p r s h
    cases s with
    | nil => rfl
    | cons c t =>
      rw [occurs, Bool.or_eq_false_iff] at h
      rw [replaceFuel, if_neg (by simp [h.1]), ih p r t h.2]

theorem mask_replaceFuel : ∀ (fuel : Nat) (p r s : List Char), Mask p r → p ≠ [] →
    s.length ≤ fuel → Mask s (replaceFuel p r fuel s) := by
  intro fuel
  induction fuel with
  | zero =>
    intro p r s _ _ hlen
    have hs : s = [] := List.eq_nil_of_length_eq_zero (Nat.le_zero.mp hlen)
    subst hs
    exact Mask.nil
  | succ n ih =>
    intro p r s hm hp hlen
    cases s with
    | nil => exact Mask.nil
    | cons c t =>
      by_cases hpre : pref p (c :: t) = true
      · obtain ⟨t2, ht2⟩ := (pref_iff_append p _).mp hpre
        rw [replaceFuel, if_pos hpre, ht2, List.drop_left]
        have hpl : 0 < p.length := List.length_pos.mpr hp
        have hl2 : t2.length ≤ n := by
          have hle := congrArg List.length ht2
          simp only [List.length_cons, List.length_append] at hle
          simp only [List.length_cons] at hlen
          omega
        exact Mask.append hm (ih p r t2 hm hp hl2)
      · rw [replaceFuel, if_neg hpre]
        exact Mask.same c (ih p r t hm hp (by simpa using hlen))

theorem replaceFuel_no_self : ∀ (fuel : Nat) (p r s : List Char), p ≠ [] → Mask p r →
    noSpan p r = true → goodq p = true → s.length ≤ fuel →
    occurs p (replaceFuel p r fuel s) = false := by
  intro fuel
  induction fuel with
  | zero =>
    intro p r s hp _ _ _ hlen
    have hs : s = [] := List.eq_nil_of_length_eq_zero (Nat.le_zero.mp hlen)
    subst hs
    cases p with
    | nil => exact absurd rfl hp
    | cons a q => rfl
  | succ n ih =>
    intro p r s hp hm hns hg hlen
    cases s with
    | nil =>
      cases p with
      | nil => exact absurd rfl hp
      | cons a q => rfl
    | cons c t =>
      by_cases hpre : pref p (c :: t) = true
      · obtain ⟨t2, ht2⟩ := (pref_iff_append p _).mp hpre
        rw [replaceFuel, if_pos hpre, ht2, List.drop_left]
        have hpl : 0 < p.length := List.length_pos.mpr hp
        have hl2 : t2.length ≤ n := by
          have hle := congrArg List.length ht2
          simp only [List.length_cons, List.length_append] at hle
          simp only [List.length_cons] at hlen
          omega
        exact occurs_append_no r p _ (ih p r t2 hp hm hns hg hl2) hns
      · rw [replaceFuel, if_neg hpre]
        have hmask : Mask (c :: t) (c :: replaceFuel p r n t) :=
          Mask.same c (mask_replaceFuel n p r t hm hp (by simpa using hlen))
        have h2 : occurs p (replaceFuel p r n t) = false :=
          ih p r t hp hm hns hg (by simpa using hlen)
        cases hbp : pref p (c :: replaceFuel p r n t) with
        | false => rw [occurs, hbp, h2]; rfl
        | true => exact absurd (Mask.pref_transfer hmask hg hbp) hpre

theorem pyReplace_id {p r s : List Char} (h : occurs p s = false) : pyReplace p r s = s :=
  replaceFuel_id s.length p r s h

theorem pyReplace_mask {p r : List Char} (hm : Mask p r) (hp : p ≠ []) (s : List Char) :
    Mask s (pyReplace p r s) :=
  mask_replaceFuel s.length p r s hm hp (le_refl _)

theorem pyReplace_no_self {p r : List Char} (hp : p ≠ []) (hm : Mask p r)
    (hns : noSpan p r = true) (hg : goodq p = true) (s : List Char) :
    occurs p (pyReplace p r s) = false :=
  replaceFuel_no_self s.length p r s hp hm hns hg (le_refl _)

theorem pyReplace_preserve {p r q : List Char} (hm : Mask p r) (hp : p ≠ [])
    (hg : goodq q = true) (s : List Char) (h : occurs q s = false) :
    occurs q (pyReplace p r s) = false := by
  cases hO : occurs q (pyReplace p r s) with
  | false => rfl
  | true =>
    have hocc := Mask.occurs_transfer (pyReplace_mask hm hp s) hg hO
    rw [hocc] at h
    exact absurd h (by simp)

theorem mask_alicloud : Mask (str "alicloudDns") (str "alicloudDNS") := by
  repeat first | exact Mask.nil | apply Mask.dns | apply Mask.ns | apply Mask.same

theorem mask_azure : Mask (str "azureDns") (str "azureDNS") := by
  repeat first | exact Mask.nil | apply Mask.dns | apply Mask.ns | apply Mask.same

theorem mask_google : Mask (str "googleClouddns") (str "googleCloudDNS") := by
  repeat first | exact Mask.nil | apply Mask.dns | apply Mask.ns | apply Mask.same

theorem mask_ingress : Mask (str "ingressDns") (str "ingressDNS") := by
  repeat first | exact Mask.nil | apply Mask.dns | apply Mask.ns | apply Mask.same

theorem mask_service : Mask (str "serviceDns") (str "serviceDNS") := by
  repeat first | exact Mask.nil | apply Mask.dns | apply Mask.ns | apply Mask.same

theorem mask_cloudflare : Mask (str "cloudflareDns") (str "cloudflareDNS") := by
  repeat first | exact Mask.nil | apply Mask.dns | apply Mask.ns | apply Mask.same

theorem mask_infoblox : Mask (str "infobloxDns") (str "infobloxDNS") := by
  repeat first | exact Mask.nil | apply Mask.dns | apply Mask.ns | apply Mask.same


theorem applyReplacements_eq_id {y : List Char}
    (h1 : occurs (str "alicloudDns") y = false)
    (h2 : occurs (str "azureDns") y = false)
    (h3 : occurs (str "googleClouddns") y = false)
    (h4 : occurs (str "ingressDns") y = false)
    (h5 : occurs (str "serviceDns") y = false)
    (h6 : occurs (str "cloudflareDns") y = false)
    (h7 : occurs (str "infobloxDns") y = false) :
    applyReplacements y = y := by
  rw [applyReplacements, pyReplace_id h1, pyReplace_id h2, pyReplace_id h3, pyReplace_id h4,
    pyReplace_id h5, pyReplace_id h3, pyReplace_id h6, pyReplace_id h7]

theorem applyReplacements_noocc (s : List Char) :
    occurs (str "alicloudDns") (applyReplacements s) = false ∧
    occurs (str "azureDns") (applyReplacements s) = false ∧
    occurs (str "googleClouddns") (applyReplacements s) = false ∧
    occurs (str "ingressDns") (applyReplacements s) = false ∧
    occurs (str "serviceDns") (applyReplacements s) = false ∧
    occurs (str "cloudflareDns") (applyReplacements s) = false ∧
    occurs (str "infobloxDns") (applyReplacements s) = false := by
  rw [applyReplacements]
  refine ⟨?_, ?_, ?_, ?_, ?_, ?_, ?_⟩
  · apply pyReplace_preserve mask_infoblox (by decide) (by decide)
    apply pyReplace_preserve mask_cloudflare (by decide) (by decide)
    apply pyReplace_preserve mask_google (by decide) (by decide)
    apply pyReplace_preserve mask_service (by decide) (by decide)
    apply pyReplace_preserve mask_ingress (by decide) (by decide)
    apply pyReplace_preserve mask_google (by decide) (by decide)
    apply pyReplace_preserve mask_azure (by decide) (by decide)
    exact pyReplace_no_self (by decide) mask_alicloud (by decide) (by decide) s
  · apply pyReplace_preserve mask_infoblox (by decide) (by decide)
    apply pyReplace_preserve mask_cloudflare (by decide) (by decide)
    apply pyReplace_preserve mask_google (by decide) (by decide)
    apply pyReplace_preserve mask_service (by decide) (by decide)
    apply pyReplace_preserve mask_ingress (by decide) (by decide)
    apply pyReplace_preserve mask_google (by decide) (by decide)
    exact pyReplace_no_self (by decide) mask_azure (by decide) (by decide) _
  · apply pyReplace_preserve mask_infoblox (by decide) (by decide)
    apply pyReplace_preserve mask_cloudflare (by decide) (by decide)
    exact pyReplace_no_self (by decide) mask_google (by decide) (by decide) _
  · apply pyReplace_preserve mask_infoblox (by decide) (by decide)
    apply pyReplace_preserve mask_cloudflare (by decide) (by decide)
    apply pyReplace_preserve mask_google (by decide) (by decide)
    apply pyReplace_preserve mask_service (by decide) (by decide)
    exact pyReplace_no_self (by decide) mask_ingress (by decide) (by decide) _
  · apply pyReplace_preserve mask_infoblox (by decide) (by decide)
    apply pyReplace_preserve mask_cloudflare (by decide) (by decide)
    apply pyReplace_preserve mask_google (by decide) (by decide)
    exact pyReplace_no_self (by decide) mask_service (by decide) (by decide) _
  · apply pyReplace_preserve mask_infoblox (by decide) (by decide)
    exact pyReplace_no_self (by decide) mask_cloudflare (by decide) (by decide) _
  · exact pyReplace_no_self (by decide) mask_infoblox (by decide) (by decide) _

/-- Claim C5: the acronym-correction step of the name transform (the ordered
chain of literal substring replacements, source lines 292-299) is idempotent:
for every string, applying the replacement chain to a string that is already
the output of the chain yields that string unchanged. -/
theorem claim5_replacement_chain_idempotent (s : List Char) :
    applyReplacements (applyReplacements s) = applyReplacements s := by
  obtain ⟨h1, h2, h3, h4, h5, h6, h7⟩ := applyReplacements_noocc s
  exact applyReplacements_eq_id h1 h2 h3 h4 h5 h6 h7


/-! ### Helper lemmas: the line regex -/

theorem takeWhile_append_all {α : Type} (f : α → Bool) :
    ∀ (a b : List α), (∀ x ∈ a, f x = true) → (a ++ b).takeWhile f = a ++ b.takeWhile f := by
  intro a
  induction a with
  | nil => intro b _; rfl
  | cons x a2 ih =>
    intro b h
    have hx : f x = true := h x (List.mem_cons_self x a2)
    simp only [List.cons_append, List.takeWhile_cons_of_pos hx]
    rw [ih b (fun y hy => h y (List.mem_cons_of_mem _ hy))]

theorem dropWhile_append_all {α : Type} (f : α → Bool) :
    ∀ (a b : List α), (∀ x ∈ a, f x = true) → (a ++ b).dropWhile f = b.dropWhile f := by
  intro a
  induction a with
  | nil => intro b _; rfl
  | cons x a2 ih =>
    intro b h
    have hx : f x = true := h x (List.mem_cons_self x a2)
    simp only [List.cons_append, List.dropWhile_cons_of_pos hx]
    exact ih b (fun y hy => h y (List.mem_cons_of_mem _ hy))

theorem splitLines_ne_nil : ∀ (t : List Char), splitLines t ≠ [] := by
  intro t
  cases t with
  | nil => simp [splitLines]
  | cons c t2 =>
    rw [splitLines]
    by_cases hc : (c == '\n') = true
    · rw [if_pos hc]
      simp
    · rw [if_neg hc]
      cases hs : splitLines t2 with
      | nil => simp
      | cons h r => simp

theorem splitLines_append : ∀ (t1 t2 : List Char),
    splitLines (t1 ++ '\n' :: t2) = splitLines t1 ++ splitLines t2 := by
  intro t1
  induction t1 with
  | nil =>
    intro t2
    simp [splitLines]
  | cons c t ih =>
    intro t2
    by_cases hc : (c == '\n') = true
    · simp only [List.cons_append]
      rw [splitLines, if_pos hc, ih t2]
      conv_rhs => rw [splitLines, if_pos hc]
      simp
    · simp only [List.cons_append]
      rw [splitLines, if_neg hc, ih t2]
      conv_rhs => rw [splitLines, if_neg hc]
      cases hs : splitLines t with
      | nil => exact absurd hs (splitLines_ne_nil t)
      | cons h r => simp [hs]

theorem afterDashes_direct (rest : List Char) : afterDashes ('-' :: '-' :: rest) = some rest := rfl

theorem afterDashes_group {run rest : List Char} (hne : run ≠ [])
    (hrun : ∀ x ∈ run, ¬(x = '-')) :
    afterDashes ('-' :: (run ++ '-' :: '-' :: rest)) = some rest := by
  cases run with
  | nil => exact absurd rfl hne
  | cons r0 run2 =>
    have hr0 : (r0 == '-') = false := by
      simpa using hrun r0 (List.mem_cons_self _ _)
    have hdw : ((r0 :: run2) ++ '-' :: '-' :: rest).dropWhile (fun x => !(x == '-')) =
        '-' :: '-' :: rest := by
      rw [dropWhile_append_all _ _ _ (fun y hy => by simpa using hrun y hy)]
      rw [List.dropWhile_cons_of_neg]
      simp
    simp only [List.cons_append] at hdw ⊢
    simp [afterDashes.eq_def, hr0, hdw]

theorem afterDashes_some : ∀ {s1 rest : List Char}, afterDashes s1 = some rest →
    s1 = '-' :: '-' :: rest ∨
    ∃ run, s1 = '-' :: (run ++ '-' :: '-' :: rest) ∧ run ≠ [] ∧ ∀ x ∈ run, ¬(x = '-') := by
  intro s1 rest h
  cases s1 with
  | nil => simp [afterDashes.eq_def] at h
  | cons c1 rest1 =>
    rw [afterDashes.eq_def] at h
    dsimp only at h
    by_cases hc1 : (c1 == '-') = true
    · rw [if_pos hc1] at h
      obtain rfl : c1 = '-' := eq_of_beq hc1
      cases rest1 with
      | nil => simp at h
      | cons c rest2 =>
        dsimp only at h
        by_cases hc : (c == '-') = true
        · rw [if_pos hc] at h
          obtain rfl : c = '-' := eq_of_beq hc
          obtain rfl : rest2 = rest := by
            injection h
          exact Or.inl rfl
        · rw [if_neg hc] at h
          cases hd : (c :: rest2).dropWhile (fun x => !(x == '-')) with
          | nil =>
            rw [hd] at h
            simp at h
          | cons d1 dd =>
            cases dd with
            | nil =>
              rw [hd] at h
              simp at h
            | cons d2 rest3 =>
              rw [hd] at h
              dsimp only at h
              split at h
              · rename_i hdd
                obtain rfl : rest3 = rest := by
                  injection h
                rw [Bool.and_eq_true] at hdd
                obtain rfl : d1 = '-' := eq_of_beq hdd.1
                obtain rfl : d2 = '-' := eq_of_beq hdd.2
                right
                refine ⟨(c :: rest2).takeWhile (fun x => !(x == '-')), ?_, ?_, ?_⟩
                · have hsplit := List.takeWhile_append_dropWhile (fun x => !(x == '-')) (c :: rest2)
                  rw [hd] at hsplit
                  rw [hsplit]
                · have hcf : (!(c == '-')) = true := by
                    simp only [Bool.not_eq_true] at hc ⊢
                    simp [hc]
                  rw [List.takeWhile_cons, if_pos hcf]
                  simp
                · intro x hx
                  have := List.mem_takeWhile_imp hx
                  simpa using this
              · exact absurd h (by simp)
    · rw [if_neg hc1] at h
      exact absurd h (by simp)

theorem matchLine_of_shape {line nm : List Char} (h : ShapeReq line nm) :
    matchLine line = some nm := by
  obtain ⟨ws, g, c, t2, hline, hwsne, hwsall, hg, hnmne, hnmall, hc⟩ := h
  subst hline
  rw [List.append_assoc]
  have hXhead : ∃ x xs, g ++ ('-' :: '-' :: (nm ++ c :: t2)) = x :: xs ∧ isSpace x = false := by
    rcases hg with rfl | ⟨run, rfl, -, -⟩
    · exact ⟨'-', _, rfl, by decide⟩
    · exact ⟨'-', _, rfl, by decide⟩
  obtain ⟨x, xs, hX, hxs⟩ := hXhead
  have htw : (ws ++ (g ++ ('-' :: '-' :: (nm ++ c :: t2)))).takeWhile isSpace = ws := by
    rw [takeWhile_append_all isSpace ws _ hwsall, hX,
      List.takeWhile_cons_of_neg (by simp [hxs]), List.append_nil]
  have hdw : (ws ++ (g ++ ('-' :: '-' :: (nm ++ c :: t2)))).dropWhile isSpace =
      g ++ ('-' :: '-' :: (nm ++ c :: t2)) := by
    rw [dropWhile_append_all isSpace ws _ hwsall, hX,
      List.dropWhile_cons_of_neg (by simp [hxs])]
  have hAD : afterDashes (g ++ ('-' :: '-' :: (nm ++ c :: t2))) = some (nm ++ c :: t2) := by
    rcases hg with rfl | ⟨run, rfl, hne, hrun⟩
    · exact afterDashes_direct _
    · rw [List.cons_append]
      exact afterDashes_group hne hrun
  have hnm : (nm ++ c :: t2).takeWhile (fun x => !isSpace x) = nm := by
    rw [takeWhile_append_all _ nm _ (fun y hy => by simp [hnmall y hy]),
      List.takeWhile_cons_of_neg (by simp [hc]), List.append_nil]
  have hnmd : (nm ++ c :: t2).dropWhile (fun x => !isSpace x) = c :: t2 := by
    rw [dropWhile_append_all _ nm _ (fun y hy => by simp [hnmall y hy]),
      List.dropWhile_cons_of_neg (by simp [hc])]
  rw [matchLine, htw, hdw, hAD]
  have hwsne2 : ws.isEmpty = false := by
    cases ws with
    | nil => exact absurd rfl hwsne
    | cons w ws2 => rfl
  rw [if_neg (by simp [hwsne2])]
  dsimp only
  rw [hnm, hnmd]
  have hnmne2 : nm.isEmpty = false := by
    cases nm with
    | nil => exact absurd rfl hnmne
    | cons n ns => rfl
  rw [if_neg (by simp [hnmne2]), if_neg (by simp)]

theorem shape_of_matchLine {line nm : List Char} (h : matchLine line = some nm) :
    ShapeReq line nm := by
  rw [matchLine] at h
  split at h
  · exact absurd h (by simp)
  · rename_i hwse
    cases hAD : afterDashes (line.dropWhile isSpace) with
    | none =>
      rw [hAD] at h
      exact absurd h (by simp)
    | some rest =>
      rw [hAD] at h
      dsimp only at h
      split at h
      · exact absurd h (by simp)
      · split at h
        · exact absurd h (by simp)
        · rename_i hnme hdwe
          obtain rfl : rest.takeWhile (fun x => !isSpace x) = nm := by
            injection h
          have hline : line = line.takeWhile isSpace ++ line.dropWhile isSpace :=
            (List.takeWhile_append_dropWhile isSpace line).symm
          have hwsne : line.takeWhile isSpace ≠ [] := by
            intro hcontra
            rw [hcontra] at hwse
            exact hwse rfl
          have hwsall : ∀ x ∈ line.takeWhile isSpace, isSpace x = true :=
            fun x hx => List.mem_takeWhile_imp hx
          have hrest : rest = rest.takeWhile (fun x => !isSpace x) ++
              rest.dropWhile (fun x => !isSpace x) :=
            (List.takeWhile_append_dropWhile _ rest).symm
          have hnmne : rest.takeWhile (fun x => !isSpace x) ≠ [] := by
            intro hcontra
            rw [hcontra] at hnme
            exact hnme rfl
          have hnmall : ∀ x ∈ rest.takeWhile (fun x => !isSpace x), isSpace x = false :=
            fun x hx => by simpa using List.mem_takeWhile_imp hx
          obtain ⟨c0, t2, hdw2⟩ : ∃ c0 t2, rest.dropWhile (fun x => !isSpace x) = c0 :: t2 := by
            cases hdd : rest.dropWhile (fun x => !isSpace x) with
            | nil =>
              rw [hdd] at hdwe
              exact absurd rfl hdwe
            | cons c0 t2 => exact ⟨c0, t2, rfl⟩
          have hc0 : isSpace c0 = true := by
            have h5 := List.head?_dropWhile_not (fun x => !isSpace x) rest
            rw [hdw2] at h5
            simp only [List.head?_cons] at h5
            simpa using h5
          have hrest2 : rest = rest.takeWhile (fun x => !isSpace x) ++ (c0 :: t2) := by
            conv_lhs => rw [hrest]
            rw [hdw2]
          rcases afterDashes_some hAD with hcase | ⟨run, hcase, hrunne, hrunall⟩
          · refine ⟨line.takeWhile isSpace, [], c0, t2, ?_, hwsne, hwsall, Or.inl rfl,
              hnmne, hnmall, hc0⟩
            conv_lhs => rw [hline, hcase, hrest2]
            simp
          · refine ⟨line.takeWhile isSpace, '-' :: run, c0, t2, ?_, hwsne, hwsall,
              Or.inr ⟨run, rfl, hrunne, hrunall⟩, hnmne, hnmall, hc0⟩
            conv_lhs => rw [hline, hcase, hrest2]
            simp

/-- Claim C1 (amended: the regex requires at least one leading whitespace
character; the spec called the leading whitespace optional): for every line,
the extractor returns a captured name exactly when the line has the shape
mandatory-whitespace, optional short-flag group, `--`, non-empty name,
whitespace — and the name returned is exactly the captured token (so matching
lines yield exactly one candidate and non-matching lines are skipped).
Moreover extraction distributes over line concatenation, so the name sequence
preserves the order of lines in the input text. -/
theorem claim1_extraction_shape :
    (∀ line nm : List Char, matchLine line = some nm ↔ ShapeReq line nm) ∧
    (∀ t1 t2 : List Char,
      extractedNames (t1 ++ '\n' :: t2) = extractedNames t1 ++ extractedNames t2) := by
  constructor
  · intro line nm
    exact ⟨fun h => shape_of_matchLine h, fun h => matchLine_of_shape h⟩
  · intro t1 t2
    rw [extractedNames, extractedNames, extractedNames, splitLines_append,
      List.filterMap_append]

/-- Counterexample to claim C1 as stated: the line `--foo bar` satisfies the
claimed shape with zero-width leading whitespace (it decomposes as empty
whitespace, no short-flag token, `--`, the name `foo`, then whitespace), yet
the extractor produces no candidate for it, because the regex `\s+` demands at
least one leading whitespace character. -/
theorem claim1_counterexample :
    str "--foo bar" = ([] : List Char) ++ [] ++ ('-' :: '-' :: (str "foo" ++ ' ' :: str "bar")) ∧
    str "foo" ≠ [] ∧
    (str "foo").all (fun x => !isSpace x) = true ∧
    isSpace ' ' = true ∧
    matchLine (str "--foo bar") = none := by
  refine ⟨by decide, by decide, by decide, by decide, by decide⟩


/-! ### Helper lemmas: name transformation -/

theorem splitDelim_ne_nil : ∀ (s : List Char), splitDelim s ≠ [] := by
  intro s
  cases s with
  | nil => simp [splitDelim]
  | cons c t =>
    rw [splitDelim]
    by_cases hc : isDelim c = true
    · rw [if_pos hc]
      simp
    · rw [if_neg hc]
      cases hs : splitDelim t with
      | nil => simp
      | cons h r => simp

theorem splitDelim_no_delim : ∀ (s : List Char), (∀ c ∈ s, isDelim c = false) →
    splitDelim s = [s] := by
  intro s
  induction s with
  | nil => intro _; rfl
  | cons c t ih =>
    intro h
    have hc : isDelim c = false := h c (List.mem_cons_self _ _)
    rw [splitDelim, if_neg (by simp [hc]), ih (fun y hy => h y (List.mem_cons_of_mem _ hy))]

theorem splitDelim_has_nonempty : ∀ (s : List Char), (∃ c ∈ s, isDelim c = false) →
    ∃ seg ∈ splitDelim s, seg ≠ [] := by
  intro s
  induction s with
  | nil =>
    rintro ⟨c, hc, -⟩
    exact absurd hc (List.not_mem_nil c)
  | cons c t ih =>
    rintro ⟨x, hx, hxd⟩
    by_cases hc : isDelim c = true
    · have hxt : x ∈ t := by
        rcases List.mem_cons.mp hx with rfl | h2
        · rw [hc] at hxd
          exact absurd hxd (by simp)
        · exact h2
      obtain ⟨seg, hseg, hne⟩ := ih ⟨x, hxt, hxd⟩
      refine ⟨seg, ?_, hne⟩
      rw [splitDelim, if_pos hc]
      exact List.mem_cons_of_mem _ hseg
    · cases hs : splitDelim t with
      | nil => exact absurd hs (splitDelim_ne_nil t)
      | cons h0 r =>
        refine ⟨c :: h0, ?_, by simp⟩
        rw [splitDelim, if_neg hc, hs]
        exact List.mem_cons_self _ _

theorem pyCapitalize_ne_nil : ∀ {seg : List Char}, seg ≠ [] → pyCapitalize seg ≠ [] := by
  intro seg h
  cases seg with
  | nil => exact absurd rfl h
  | cons c t => simp [pyCapitalize]

theorem flatten_ne_nil : ∀ (L : List (List Char)) (l : List Char), l ∈ L → l ≠ [] →
    L.flatten ≠ [] := by
  intro L
  induction L with
  | nil =>
    intro l hmem _
    cases hmem
  | cons a L2 ih =>
    intro l hmem hne2 hcontra
    rw [List.flatten_cons, List.append_eq_nil] at hcontra
    rcases List.mem_cons.mp hmem with rfl | h2
    · exact hne2 hcontra.1
    · exact ih l h2 hne2 hcontra.2

/-! ### Claims C2, C6, C7, C8 -/

/-- Counterexample to claim C2 as stated: `foo-remote-access-bar` contains
`remote-access-` followed by at least one character, so the claimed pattern
policy excludes it, but the script keeps it: it is not in the `excluded` set
and passes the survival filter. -/
theorem claim2_counterexample :
    str "foo-remote-access-bar" = str "foo-" ++ str "remote-access-" ++ str "bar" ∧
    str "bar" ≠ [] ∧
    surviving (str "foo-remote-access-bar") = true ∧
    excluded.contains (str "foo-remote-access-bar") = false :=
  ⟨by decide, by decide, by decide, by decide⟩

/-- Claim C2 (amended: the script uses only the exact exclusion set of source
lines 302-304, with the seven provider cache-dir names enumerated literally;
no suffix or substring patterns are applied): a name is excluded exactly when
it is one of the twelve literal names.  In particular
`alicloud-dns.cache-dir` is excluded, `alicloud-dns.cache-ttl` is not, and —
contrary to the original claim — `foo-remote-access-bar` is not excluded. -/
theorem claim2_exclusion_exact_set :
    (∀ n : List Char, excluded.contains n = true ↔
      (n = str "name" ∨ n = str "help" ∨ n = str "identifier" ∨ n = str "dry-run" ∨
       n = str "cache-dir" ∨ n = str "alicloud-dns.cache-dir" ∨
       n = str "aws-route53.cache-dir" ∨ n = str "azure-dns.cache-dir" ∨
       n = str "google-clouddns.cache-dir" ∨ n = str "openstack-designate.cache-dir" ∨
       n = str "cloudflare-dns.cache-dir" ∨ n = str "infoblox-dns.cache-dir")) ∧
    excluded.contains (str "alicloud-dns.cache-dir") = true ∧
    excluded.contains (str "alicloud-dns.cache-ttl") = false ∧
    excluded.contains (str "foo-remote-access-bar") = false := by
  refine ⟨?_, by decide, by decide, by decide⟩
  intro n
  simp [excluded, List.elem_iff, List.mem_cons]

/-- Counterexample to claim C6 as stated: in the input name `aXb` the
character `X` sits in the first segment beyond position 0, and the claim says
it retains its casing, but Python `str.capitalize` lowercases everything after
a segment head: the transform yields `axb`, not `aXb`. -/
theorem claim6_counterexample :
    toCamelCase (str "aXb") = some (str "axb") ∧ str "axb" ≠ str "aXb" :=
  ⟨by decide, by decide⟩

/-- Claim C6 (amended: the per-segment capitalization uppercases the first
letter and LOWERCASES the rest of the segment, so characters beyond a
segment's first letter are lowercased rather than retained): for a
delimiter-free name the generic transform maps every character through
`Char.toLower` (the head after a round trip through `Char.toUpper`). -/
theorem claim6_segment_lowercased (name : List Char) (c : Char) (t : List Char)
    (hname : name = c :: t) (hnd : ∀ x ∈ name, isDelim x = false) :
    camelCore name = some (Char.toLower (Char.toUpper c) :: t.map Char.toLower) := by
  subst hname
  have hsd : splitDelim (c :: t) = [c :: t] := splitDelim_no_delim _ hnd
  have hfl : ((splitDelim (c :: t)).map pyCapitalize).flatten =
      Char.toUpper c :: t.map Char.toLower := by
    rw [hsd]
    simp [pyCapitalize]
  rw [camelCore.eq_def, hfl]

theorem claim6_witness :
    camelCore (str "aXb") =
      some (Char.toLower (Char.toUpper 'a') :: (str "Xb").map Char.toLower) :=
  claim6_segment_lowercased (str "aXb") 'a' (str "Xb") (by decide) (by decide)

/-- Claim C7: `toCamelCase` never fails on a well-formed name: if the name is
non-empty and has at least one non-delimiter character, the joined
capitalization is non-empty, so the `str[0]` indexing (the `none` branch of
`camelCore`) is unreachable and the transform returns a value. -/
theorem claim7_toCamelCase_total (name : List Char) (_hne : name ≠ [])
    (hch : ∃ c ∈ name, isDelim c = false) : (toCamelCase name).isSome = true := by
  obtain ⟨seg, hmem, hsegne⟩ := splitDelim_has_nonempty name hch
  have h2 : pyCapitalize seg ∈ (splitDelim name).map pyCapitalize :=
    List.mem_map_of_mem _ hmem
  have h3 : ((splitDelim name).map pyCapitalize).flatten ≠ [] :=
    flatten_ne_nil _ _ h2 (pyCapitalize_ne_nil hsegne)
  rw [toCamelCase]
  cases hfl : ((splitDelim name).map pyCapitalize).flatten with
  | nil => exact absurd hfl h3
  | cons c t =>
    rw [camelCore.eq_def, hfl]
    rfl

theorem claim7_witness :
    str "ttl" ≠ [] ∧ (∃ c ∈ str "ttl", isDelim c = false) ∧
      (toCamelCase (str "ttl")).isSome = true :=
  ⟨by decide, by decide, claim7_toCamelCase_total (str "ttl") (by decide) (by decide)⟩

/-- Claim C8: for the literal name `azure-dns.dns-class` the transform yields
`azureDNSDnsClass`: the provider part carries the corrected acronym `azureDNS`
(as a prefix of the key), and the naively-capitalized `azureDns` does not
occur anywhere in the key. -/
theorem claim8_azure_dns_class :
    toCamelCase (str "azure-dns.dns-class") = some (str "azureDNSDnsClass") ∧
    pref (str "azureDNS") (str "azureDNSDnsClass") = true ∧
    occurs (str "azureDns") (str "azureDNSDnsClass") = false :=
  ⟨by decide, by decide, by decide⟩


/-! ### Helper lemmas: the two renderers -/

theorem mapOpt_map_decomp {α β γ : Type} (f : α → Option β) (g : α → β → γ) :
    ∀ (ns : List α) (cs : List γ), mapOpt (fun n => (f n).map (g n)) ns = some cs →
    ∃ ks, mapOpt f ns = some ks ∧ ks.length = ns.length ∧
      cs = (ns.zip ks).map (fun p => g p.1 p.2) := by
  intro ns
  induction ns with
  | nil =>
    intro cs h
    rw [mapOpt] at h
    obtain rfl : ([] : List γ) = cs := by injection h
    exact ⟨[], rfl, rfl, rfl⟩
  | cons a as ih =>
    intro cs h
    rw [mapOpt] at h
    cases hfa : f a with
    | none =>
      rw [hfa] at h
      simp at h
    | some b =>
      rw [hfa] at h
      cases hrec : mapOpt (fun n => (f n).map (g n)) as with
      | none =>
        rw [hrec] at h
        simp at h
      | some bs =>
        rw [hrec] at h
        dsimp only [Option.map_some'] at h
        obtain rfl : g a b :: bs = cs := by injection h
        obtain ⟨ks, h1, h2, h3⟩ := ih bs hrec
        refine ⟨b :: ks, ?_, by simp [h2], ?_⟩
        · rw [mapOpt, hfa, h1]
        · simp [h3]

theorem zip_map_snd {α β : Type} : ∀ (l1 : List α) (l2 : List β), l1.length = l2.length →
    (l1.zip l2).map Prod.snd = l2 := by
  intro l1
  induction l1 with
  | nil =>
    intro l2 h
    cases l2 with
    | nil => rfl
    | cons b bs => simp at h
  | cons a as ih =>
    intro l2 h
    cases l2 with
    | nil => simp at h
    | cons b bs => simp [ih bs (by simpa using h)]

theorem sum_map_three {γ : Type} : ∀ (l : List γ), (l.map (fun _ => (3 : Nat))).sum = 3 * l.length := by
  intro l
  induction l with
  | nil => rfl
  | cons a t ih =>
    simp only [List.map_cons, List.sum_cons, ih, List.length_cons]
    omega

theorem templateOut_decomp {text : List Char} {out : List (List Char)}
    (h : templateOut text = some out) :
    ∃ ks, keysOf text = some ks ∧ ks.length = (survivors text).length ∧
      out = (((survivors text).zip ks).map (fun p => block p.1 p.2)).flatten := by
  rw [templateOut] at h
  cases hm : mapOpt (fun n => (toCamelCase n).map (fun k => block n k)) (survivors text) with
  | none =>
    rw [hm] at h
    simp at h
  | some bs =>
    rw [hm] at h
    dsimp only [Option.map_some'] at h
    obtain rfl : bs.flatten = out := by injection h
    obtain ⟨ks, h1, h2, h3⟩ :=
      mapOpt_map_decomp toCamelCase (fun n k => block n k) (survivors text) bs hm
    exact ⟨ks, h1, h2, by rw [h3]⟩

theorem configOut_decomp {text : List Char} {out : List (List Char)}
    (h : configOut text = some out) :
    ∃ ks, keysOf text = some ks ∧ ks.length = (survivors text).length ∧
      out = str "configuration:" :: ks.map configLine := by
  rw [configOut] at h
  cases hm : mapOpt (fun n => (toCamelCase n).map configLine) (survivors text) with
  | none =>
    rw [hm] at h
    simp at h
  | some ls =>
    rw [hm] at h
    dsimp only [Option.map_some'] at h
    obtain rfl : str "configuration:" :: ls = out := by injection h
    obtain ⟨ks, h1, h2, h3⟩ :=
      mapOpt_map_decomp toCamelCase (fun _ k => configLine k) (survivors text) ls hm
    refine ⟨ks, h1, h2, ?_⟩
    rw [h3]
    have h4 : ((survivors text).zip ks).map (fun p => configLine p.2) =
        (((survivors text).zip ks).map Prod.snd).map configLine := by
      rw [List.map_map]
      rfl
    rw [h4, zip_map_snd _ _ h2.symm]

theorem guardLine_ne_nil (k : List Char) : guardLine k ≠ [] := by
  intro h
  rw [guardLine, List.append_eq_nil] at h
  exact absurd h.2 (by decide)

theorem bodyLine_ne_nil (n k : List Char) : bodyLine n k ≠ [] := by
  intro h
  rw [bodyLine, List.append_eq_nil] at h
  exact absurd h.2 (by decide)

/-! ### Claims C3, C4, C9, C10 -/

/-- Claim C3: when the run completes, the first artifact is exactly the
concatenation, in extraction order, of one `block` per surviving flag, where
`block n k = [guardLine k, bodyLine n k, endLine]` is a 3-line conditional
template block: the opening guard and the body reference the camel-case key
`k`, the body argument `--n=...` carries the original flag name `n`
(see the definitions of `guardLine`, `bodyLine`, `endLine`), and the flat
output contains no blank separator lines. -/
theorem claim3_template_blocks (text : List Char) (out : List (List Char))
    (h : templateOut text = some out) :
    ∃ ks, keysOf text = some ks ∧ ks.length = (survivors text).length ∧
      out = (((survivors text).zip ks).map (fun p => block p.1 p.2)).flatten ∧
      ∀ l ∈ out, l ≠ [] := by
  obtain ⟨ks, h1, h2, h3⟩ := templateOut_decomp h
  refine ⟨ks, h1, h2, h3, ?_⟩
  intro l hl
  rw [h3, List.mem_flatten] at hl
  obtain ⟨b, hb, hlb⟩ := hl
  rw [List.mem_map] at hb
  obtain ⟨p, -, rfl⟩ := hb
  rw [block] at hlb
  simp only [List.mem_cons, List.not_mem_nil, or_false] at hlb
  rcases hlb with rfl | rfl | rfl
  · exact guardLine_ne_nil _
  · exact bodyLine_ne_nil _ _
  · decide

theorem claim3_witness :
    templateOut (str "      --ttl int   x") =
      some [guardLine (str "ttl"), bodyLine (str "ttl") (str "ttl"), endLine] ∧
    (∃ ks, keysOf (str "      --ttl int   x") = some ks ∧
      ks.length = (survivors (str "      --ttl int   x")).length ∧
      [guardLine (str "ttl"), bodyLine (str "ttl") (str "ttl"), endLine] =
        (((survivors (str "      --ttl int   x")).zip ks).map (fun p => block p.1 p.2)).flatten ∧
      ∀ l ∈ [guardLine (str "ttl"), bodyLine (str "ttl") (str "ttl"), endLine], l ≠ []) :=
  ⟨by decide, claim3_template_blocks (str "      --ttl int   x") _ (by decide)⟩

/-- Claim C4: when the run completes, the second artifact is the literal
header line `configuration:` followed by exactly one line per surviving flag
in extraction order, each produced by `configLine`: an active entry
`  <key>: <value>` when the key is in the `defaultValues` table, and a
commented placeholder `# <key>:` otherwise; in particular the key
`controllers` (with table value `all`) renders as `  controllers: all` and the
key `setup` (absent from the table) renders as `# setup:`. -/
theorem claim4_config_stanza (text : List Char) (out : List (List Char))
    (h : configOut text = some out) :
    ∃ ks, keysOf text = some ks ∧
      out = str "configuration:" :: ks.map configLine ∧
      out.length = 1 + (survivors text).length ∧
      configLine (str "controllers") = str "  controllers: all" ∧
      configLine (str "setup") = str "# setup:" := by
  obtain ⟨ks, h1, h2, h3⟩ := configOut_decomp h
  refine ⟨ks, h1, h3, ?_, by decide, by decide⟩
  rw [h3]
  simp [h2]
  omega

theorem claim4_witness :
    configOut (str "      --ttl int   x") = some [str "configuration:", str "  ttl: 120"] ∧
    (∃ ks, keysOf (str "      --ttl int   x") = some ks ∧
      [str "configuration:", str "  ttl: 120"] = str "configuration:" :: ks.map configLine ∧
      ([str "configuration:", str "  ttl: 120"] : List (List Char)).length =
        1 + (survivors (str "      --ttl int   x")).length ∧
      configLine (str "controllers") = str "  controllers: all" ∧
      configLine (str "setup") = str "# setup:") :=
  ⟨by decide, claim4_config_stanza (str "      --ttl int   x") _ (by decide)⟩

/-- Claim C9: both renderers run the identical extract-filter-transform
pipeline over the same input, so whenever both artifacts are produced, one
single key sequence `ks` (the camel-case keys of the survivors, in extraction
order) generates both: the template blocks are rendered from the
survivor/key pairs and the configuration lines from the very same keys,
element for element in the same order and multiplicity. -/
theorem claim9_same_key_sequence (text : List Char) (tOut cOut : List (List Char))
    (ht : templateOut text = some tOut) (hc : configOut text = some cOut) :
    ∃ ks, keysOf text = some ks ∧ ks.length = (survivors text).length ∧
      tOut = (((survivors text).zip ks).map (fun p => block p.1 p.2)).flatten ∧
      cOut = str "configuration:" :: ks.map configLine := by
  obtain ⟨ks1, h11, h12, h13⟩ := templateOut_decomp ht
  obtain ⟨ks2, h21, h22, h23⟩ := configOut_decomp hc
  obtain rfl : ks1 = ks2 := by
    have := h11.symm.trans h21
    injection this
  exact ⟨ks1, h11, h12, h13, h23⟩

theorem claim9_witness :
    templateOut (str "      --ttl int   x") =
      some [guardLine (str "ttl"), bodyLine (str "ttl") (str "ttl"), endLine] ∧
    configOut (str "      --ttl int   x") = some [str "configuration:", str "  ttl: 120"] ∧
    (∃ ks, keysOf (str "      --ttl int   x") = some ks ∧
      ks.length = (survivors (str "      --ttl int   x")).length ∧
      [guardLine (str "ttl"), bodyLine (str "ttl") (str "ttl"), endLine] =
        (((survivors (str "      --ttl int   x")).zip ks).map (fun p => block p.1 p.2)).flatten ∧
      [str "configuration:", str "  ttl: 120"] =
        str "configuration:" :: ks.map configLine) :=
  ⟨by decide, by decide,
    claim9_same_key_sequence (str "      --ttl int   x") _ _ (by decide) (by decide)⟩

/-- Claim C10: no deduplication or collision handling happens anywhere: the
first artifact always has exactly three lines per surviving flag and the
second exactly one line per surviving flag plus the header, regardless of
whether distinct surviving names collapse to the same camel-case key (the
witness instantiates exactly such a collision: `a-b` and `a.b` both map to
key `aB`, and both still produce their own block and stanza line). -/
theorem claim10_no_dedup (text : List Char) (tOut cOut : List (List Char))
    (ht : templateOut text = some tOut) (hc : configOut text = some cOut) :
    tOut.length = 3 * (survivors text).length ∧
    cOut.length = 1 + (survivors text).length := by
  obtain ⟨ks1, h11, h12, h13⟩ := templateOut_decomp ht
  obtain ⟨ks2, h21, h22, h23⟩ := configOut_decomp hc
  constructor
  · rw [h13, List.length_flatten, List.map_map]
    have h4 : (List.length ∘ fun p : List Char × List Char => block p.1 p.2) =
        fun _ => (3 : Nat) := by
      funext p
      rfl
    rw [h4, sum_map_three, List.length_zip, h12, Nat.min_self]
  · rw [h23]
    simp [h22]
    omega

theorem claim10_witness :
    toCamelCase (str "a-b") = toCamelCase (str "a.b") ∧
    str "a-b" ≠ str "a.b" ∧
    survivors (str "  --a-b x y\n  --a.b x y") = [str "a-b", str "a.b"] ∧
    templateOut (str "  --a-b x y\n  --a.b x y") =
      some [guardLine (str "aB"), bodyLine (str "a-b") (str "aB"), endLine,
            guardLine (str "aB"), bodyLine (str "a.b") (str "aB"), endLine] ∧
    configOut (str "  --a-b x y\n  --a.b x y") =
      some [str "configuration:", str "# aB:", str "# aB:"] ∧
    ([guardLine (str "aB"), bodyLine (str "a-b") (str "aB"), endLine,
      guardLine (str "aB"), bodyLine (str "a.b") (str "aB"), endLine] : List (List Char)).length =
        3 * (survivors (str "  --a-b x y\n  --a.b x y")).length ∧
    ([str "configuration:", str "# aB:", str "# aB:"] : List (List Char)).length =
        1 + (survivors (str "  --a-b x y\n  --a.b x y")).length := by
  refine ⟨by decide, by decide, by decide, by decide, by decide, ?_, ?_⟩
  · exact (claim10_no_dedup (str "  --a-b x y\n  --a.b x y")
      [guardLine (str "aB"), bodyLine (str "a-b") (str "aB"), endLine,
       guardLine (str "aB"), bodyLine (str "a.b") (str "aB"), endLine]
      [str "configuration:", str "# aB:", str "# aB:"] (by decide) (by decide)).1
  · exact (claim10_no_dedup (str "  --a-b x y\n  --a.b x y")
      [guardLine (str "aB"), bodyLine (str "a-b") (str "aB"), endLine,
       guardLine (str "aB"), bodyLine (str "a.b") (str "aB"), endLine]
      [str "configuration:", str "# aB:", str "# aB:"] (by decide) (by decide)).2

end ChartGen
